import Mathlib

/-!
Shallow embedding of the four custom layers of
`pytorch/chapter_builders-guide/custom-layer.ipynb` (CenteredLayer, MyLinear,
TensorReductionLayer, FourierCoefficientsLayer), with theorems settling the
behavioural claims about them.  Arrays of rationals stand for the float
tensors; tensor shapes are carried explicitly so that shape checks of the
underlying tensor library (matmul, einsum, fft) can be modelled faithfully
with `Except`-valued operations.
-/

namespace CustomLayer

/-! Section: List indexing helpers -/

lemma getD_map_lt {α β : Type} (f : α → β) :
    ∀ (l : List α) (i : ℕ), i < l.length → ∀ (d : β) (d' : α),
      (l.map f).getD i d = f (l.getD i d') := by
  intro l
  induction l with
  | nil => intro i hi _ _; simp at hi
  | cons a tl ih =>
    intro i hi d d'
    cases i with
    | zero => simp
    | succ n => simpa using ih n (by simpa using hi) d d'

lemma getD_zipWith_lt (f : ℚ → ℚ → ℚ) :
    ∀ (a b : List ℚ) (i : ℕ), i < a.length → i < b.length → ∀ d,
      (List.zipWith f a b).getD i d = f (a.getD i 0) (b.getD i 0) := by
  intro a
  induction a with
  | nil => intro b i hi _ _; simp at hi
  | cons x xs ih =>
    intro b i hia hib d
    cases b with
    | nil => simp at hib
    | cons y ys =>
      cases i with
      | zero => simp
      | succ n => simpa using ih ys n (by simpa using hia) (by simpa using hib) d

lemma sum_map_sub_const (l : List ℚ) (c : ℚ) :
    (l.map (fun v => v - c)).sum = l.sum - l.length * c := by
  induction l with
  | nil => simp
  | cons a t ih =>
    simp only [List.map_cons, List.sum_cons, ih, List.length_cons]
    push_cast
    ring

/-! Section: CenteredLayer -/

/-- Arithmetic mean of a list of rationals: the embedding of the tensor
mean over all elements. -/
def listMean (l : List ℚ) : ℚ := l.sum / (l.length : ℚ)

/-- Array of arbitrary shape: a shape vector together with the flat element
data, in row-major order. -/
structure Tensor where
  shape : List ℕ
  data : List ℚ
  deriving DecidableEq

/-- Embedding of `CenteredLayer.forward`: `X - X.mean()`, subtracting the
global mean from every element. -/
def centeredForward (t : Tensor) : Tensor :=
  ⟨t.shape, t.data.map (fun v => v - listMean t.data)⟩

lemma listMean_map_sub_mean (l : List ℚ) (h : l ≠ []) :
    listMean (l.map (fun v => v - listMean l)) = 0 := by
  have hlen : (l.length : ℚ) ≠ 0 := Nat.cast_ne_zero.mpr (List.length_pos.mpr h).ne'
  unfold listMean
  rw [List.length_map, sum_map_sub_const]
  rw [mul_div_cancel₀ _ hlen]
  simp

/-- C2: CenteredLayer forward returns an array of identical shape whose
entries are the input entries minus the arithmetic mean over all input
elements. -/
theorem centeredLayer_forward_spec (t : Tensor)
    (hwf : t.data.length = t.shape.prod) (hne : t.data ≠ []) :
    (centeredForward t).shape = t.shape ∧
    (centeredForward t).data.length = t.data.length ∧
    ∀ i, i < t.data.length →
      (centeredForward t).data.getD i 0 = t.data.getD i 0 - listMean t.data := by
  refine ⟨rfl, by simp [centeredForward], ?_⟩
  intro i hi
  simpa [centeredForward] using
    getD_map_lt (fun v => v - listMean t.data) t.data i hi 0 0

/-- Witness for C2 at the concrete shape-[2] tensor with data [1, 3]. -/
theorem centeredLayer_forward_spec_witness :
    (centeredForward ⟨[2], [1, 3]⟩).shape = [2] ∧
    (centeredForward ⟨[2], [1, 3]⟩).data.length = ([1, 3] : List ℚ).length ∧
    ∀ i, i < ([1, 3] : List ℚ).length →
      (centeredForward ⟨[2], [1, 3]⟩).data.getD i 0 =
        ([1, 3] : List ℚ).getD i 0 - listMean [1, 3] :=
  centeredLayer_forward_spec ⟨[2], [1, 3]⟩ (by decide) (by decide)

/-- C5: the mean over all elements of the CenteredLayer output is exactly
zero in exact arithmetic. -/
theorem centeredLayer_mean_zero (t : Tensor) (hne : t.data ≠ []) :
    listMean (centeredForward t).data = 0 := by
  simpa [centeredForward] using listMean_map_sub_mean t.data hne

/-- Witness for C5 at the concrete shape-[3] tensor with data [1, 2, 6]. -/
theorem centeredLayer_mean_zero_witness :
    listMean (centeredForward ⟨[3], [1, 2, 6]⟩).data = 0 :=
  centeredLayer_mean_zero ⟨[3], [1, 2, 6]⟩ (by decide)

/-- C10: CenteredLayer is idempotent in exact arithmetic: centering an
already centered array changes nothing. -/
theorem centeredLayer_idempotent (t : Tensor) (hne : t.data ≠ []) :
    centeredForward (centeredForward t) = centeredForward t := by
  have h0 := listMean_map_sub_mean t.data hne
  simp only [centeredForward] at h0 ⊢
  rw [h0]
  simp

/-- Witness for C10 at the concrete shape-[2,2] tensor with data
[1, 2, 3, 4]. -/
theorem centeredLayer_idempotent_witness :
    centeredForward (centeredForward ⟨[2, 2], [1, 2, 3, 4]⟩) =
      centeredForward ⟨[2, 2], [1, 2, 3, 4]⟩ :=
  centeredLayer_idempotent ⟨[2, 2], [1, 2, 3, 4]⟩ (by decide)

/-- C7 counterexample: on an empty input tensor the forward body
`X - X.mean()` runs to completion and returns the empty tensor unchanged;
no rejection or error is raised. -/
theorem centeredLayer_empty_no_reject :
    centeredForward ⟨[0], []⟩ = ⟨[0], []⟩ := rfl

/-- C7 amended: on every empty input, CenteredLayer forward returns the
input tensor unchanged (an empty array of the same shape, containing no
elements at all), rather than rejecting it. -/
theorem centeredLayer_empty_identity (t : Tensor) (h : t.data = []) :
    centeredForward t = t := by
  cases t with
  | mk s d =>
    simp only at h
    subst h
    rfl

/-- Witness for the amended C7 at the concrete empty tensor of shape
[2, 0]. -/
theorem centeredLayer_empty_identity_witness :
    centeredForward ⟨[2, 0], []⟩ = ⟨[2, 0], []⟩ :=
  centeredLayer_empty_identity ⟨[2, 0], []⟩ rfl

/-! Section: MyLinear -/

/-- Dot product of two vectors, the elementwise-product-then-sum at the
heart of a matrix multiplication. -/
def dot (u v : List ℚ) : ℚ := (List.zipWith (fun a b => a * b) u v).sum

/-- Two-dimensional array of shape `(rows.length, cols)`: a list of rows
together with the declared column count. -/
structure Mat2 where
  rows : List (List ℚ)
  cols : ℕ
  deriving DecidableEq

/-- Well-formedness of a `Mat2`: every row has the declared length. -/
def Mat2.WF (m : Mat2) : Prop := ∀ r ∈ m.rows, r.length = m.cols

instance (m : Mat2) : Decidable m.WF :=
  decidable_of_iff (∀ r ∈ m.rows, r.length = m.cols) Iff.rfl

/-- Value computed by a successful 2-d matrix multiplication. -/
def matmulVal (x W : Mat2) : Mat2 :=
  ⟨x.rows.map (fun r =>
      (List.range W.cols).map (fun k => dot r (W.rows.map (fun wr => wr.getD k 0)))),
    W.cols⟩

/-- Embedding of `torch.matmul` on 2-d tensors: the inner dimensions must
agree exactly (no broadcasting), otherwise the call raises. -/
def matmul2d (x W : Mat2) : Except String Mat2 :=
  if x.cols = W.rows.length then Except.ok (matmulVal x W)
  else Except.error "mat1 and mat2 shapes cannot be multiplied"

/-- Value computed by a successful broadcast addition of a bias row. -/
def addBiasVal (m : Mat2) (b : List ℚ) : Mat2 :=
  ⟨m.rows.map (fun r => List.zipWith (fun a c => a + c) r b), m.cols⟩

/-- Embedding of adding a bias vector to every row of a 2-d tensor, with
the trailing-dimension check of tensor broadcasting. -/
def addBias (m : Mat2) (b : List ℚ) : Except String Mat2 :=
  if b.length = m.cols then Except.ok (addBiasVal m b)
  else Except.error "the size of the bias does not match the tensor"

/-- Embedding of `F.relu`: elementwise maximum with zero. -/
def reluM (m : Mat2) : Mat2 :=
  ⟨m.rows.map (fun r => r.map (fun v => max v 0)), m.cols⟩

/-- Embedding of `MyLinear.forward`:
`F.relu(torch.matmul(X, self.weight.data) + self.bias.data)`. -/
def myLinearForward (W : Mat2) (b : List ℚ) (x : Mat2) : Except String Mat2 :=
  match matmul2d x W with
  | Except.error e => Except.error e
  | Except.ok lin =>
    match addBias lin b with
    | Except.error e => Except.error e
    | Except.ok lb => Except.ok (reluM lb)

lemma dot_eq_sum : ∀ (n : ℕ) (u v : List ℚ), u.length = n → v.length = n →
    dot u v = ∑ i in Finset.range n, u.getD i 0 * v.getD i 0 := by
  intro n
  induction n with
  | zero =>
    intro u v hu hv
    rw [List.length_eq_zero] at hu hv
    subst hu; subst hv
    simp [dot]
  | succ n ih =>
    intro u v hu hv
    cases u with
    | nil => simp at hu
    | cons a us =>
      cases v with
      | nil => simp at hv
      | cons c vs =>
        have hus : us.length = n := by simpa using hu
        have hvs : vs.length = n := by simpa using hv
        rw [Finset.sum_range_succ']
        simp only [List.getD_cons_succ, List.getD_cons_zero]
        rw [← ih us vs hus hvs]
        simp only [dot, List.zipWith_cons_cons, List.sum_cons]
        ring

lemma getD_range_lt (n k : ℕ) (h : k < n) (d : ℕ) : (List.range n).getD k d = k := by
  rw [List.getD_eq_getElem _ _ (by simpa using h)]
  exact List.getElem_range _ _

lemma getD_mem_of_lt {α : Type} (l : List α) (i : ℕ) (h : i < l.length) (d : α) :
    l.getD i d ∈ l := by
  rw [List.getD_eq_getElem _ _ h]
  exact List.getElem_mem h

/-- C3: MyLinear forward on a well-shaped input returns the rectified
affine map: shape (batch, outUnits), each entry the dot product of the
input row with a weight column, plus the bias, clamped at zero from below,
so every element is nonnegative. -/
theorem myLinear_forward_spec (inUnits outUnits : ℕ) (W : Mat2) (b : List ℚ) (x : Mat2)
    (hWr : W.rows.length = inUnits) (hWc : W.cols = outUnits) (hW : W.WF)
    (hb : b.length = outUnits) (hx : x.WF) (hxc : x.cols = inUnits)
    (hbatch : 0 < x.rows.length) :
    ∃ y : Mat2, myLinearForward W b x = Except.ok y ∧
      y.rows.length = x.rows.length ∧ y.cols = outUnits ∧ y.WF ∧
      (∀ r k, r < x.rows.length → k < outUnits →
        (y.rows.getD r []).getD k 0 =
          max ((∑ i in Finset.range inUnits,
            (x.rows.getD r []).getD i 0 * (W.rows.getD i []).getD k 0) + b.getD k 0) 0) ∧
      (∀ row ∈ y.rows, ∀ v ∈ row, 0 ≤ v) := by
  subst hWr; subst hWc
  have hm : matmul2d x W = Except.ok (matmulVal x W) := by
    rw [matmul2d, if_pos hxc]
  have ha : addBias (matmulVal x W) b = Except.ok (addBiasVal (matmulVal x W) b) := by
    rw [addBias, if_pos]
    exact hb
  have hfwd : myLinearForward W b x = Except.ok (reluM (addBiasVal (matmulVal x W) b)) := by
    simp only [myLinearForward, hm, ha]
  have hy : (reluM (addBiasVal (matmulVal x W) b)).rows
      = x.rows.map (fun xr =>
          (List.zipWith (fun a c => a + c)
            ((List.range W.cols).map (fun k => dot xr (W.rows.map (fun wr => wr.getD k 0))))
            b).map (fun v => max v 0)) := by
    simp [reluM, addBiasVal, matmulVal, List.map_map]
  refine ⟨reluM (addBiasVal (matmulVal x W) b), hfwd, ?_, rfl, ?_, ?_, ?_⟩
  · rw [hy, List.length_map]
  · intro row hrow
    rw [hy] at hrow
    rw [List.mem_map] at hrow
    obtain ⟨xr, hxr, rfl⟩ := hrow
    simp only [List.length_map, List.length_zipWith, List.length_range, hb, min_self]
    rfl
  · intro r k hr hk
    rw [hy, getD_map_lt _ x.rows r hr [] []]
    have hxrlen : (x.rows.getD r []).length = W.rows.length :=
      (hx (x.rows.getD r []) (getD_mem_of_lt x.rows r hr [])).trans hxc
    rw [getD_map_lt (fun v => max v 0) _ k (by simp [List.length_zipWith, hb]; exact hk) 0 0]
    rw [getD_zipWith_lt _ _ _ k (by simpa using hk) (by rw [hb]; exact hk) 0]
    rw [getD_map_lt _ (List.range W.cols) k (by simpa using hk) 0 0]
    rw [getD_range_lt W.cols k hk 0]
    rw [dot_eq_sum W.rows.length _ _ hxrlen (by simp)]
    have hsum : ∀ i ∈ Finset.range W.rows.length,
        (x.rows.getD r []).getD i 0 * (W.rows.map (fun wr => wr.getD k 0)).getD i 0
          = (x.rows.getD r []).getD i 0 * (W.rows.getD i []).getD k 0 := by
      intro i hi
      rw [getD_map_lt _ W.rows i (Finset.mem_range.mp hi) 0 []]
    rw [Finset.sum_congr rfl hsum]
  · intro row hrow v hv
    rw [hy, List.mem_map] at hrow
    obtain ⟨xr, hxr, rfl⟩ := hrow
    rw [List.mem_map] at hv
    obtain ⟨u, hu, rfl⟩ := hv
    exact le_max_right u 0

/-- Witness for C3: a 1-by-2 input against a 2-by-2 weight and bias of
length 2. -/
theorem myLinear_forward_spec_witness :
    ∃ y : Mat2,
      myLinearForward ⟨[[1, 0], [0, 1]], 2⟩ [1, -10] ⟨[[3, 4]], 2⟩ = Except.ok y ∧
      y.rows.length = (⟨[[3, 4]], 2⟩ : Mat2).rows.length ∧ y.cols = 2 ∧ y.WF ∧
      (∀ r k, r < (⟨[[3, 4]], 2⟩ : Mat2).rows.length → k < 2 →
        (y.rows.getD r []).getD k 0 =
          max ((∑ i in Finset.range 2,
            ((⟨[[3, 4]], 2⟩ : Mat2).rows.getD r []).getD i 0 *
              ((⟨[[1, 0], [0, 1]], 2⟩ : Mat2).rows.getD i []).getD k 0) +
            ([1, -10] : List ℚ).getD k 0) 0) ∧
      (∀ row ∈ y.rows, ∀ v ∈ row, 0 ≤ v) :=
  myLinear_forward_spec 2 2 ⟨[[1, 0], [0, 1]], 2⟩ [1, -10] ⟨[[3, 4]], 2⟩
    rfl rfl (by decide) rfl (by decide) rfl (by decide)

/-- C8: when the trailing dimension of the input differs from the weight
row count, the matrix multiply inside MyLinear forward fails immediately
with a shape-mismatch error, and no result is produced. -/
theorem myLinear_shape_mismatch (inUnits : ℕ) (W : Mat2) (b : List ℚ) (x : Mat2)
    (hWr : W.rows.length = inUnits) (hne : x.cols ≠ inUnits) :
    myLinearForward W b x = Except.error "mat1 and mat2 shapes cannot be multiplied" := by
  subst hWr
  have hm : matmul2d x W = Except.error "mat1 and mat2 shapes cannot be multiplied" := by
    rw [matmul2d, if_neg hne]
  simp only [myLinearForward, hm]

/-- Witness for C8: a 1-by-3 input against a 2-by-1 weight. -/
theorem myLinear_shape_mismatch_witness :
    myLinearForward ⟨[[1], [1]], 1⟩ [0] ⟨[[1, 2, 3]], 3⟩ =
      Except.error "mat1 and mat2 shapes cannot be multiplied" :=
  myLinear_shape_mismatch 2 ⟨[[1], [1]], 1⟩ [0] ⟨[[1, 2, 3]], 3⟩ rfl (by decide)

/-- Module state of MyLinear: its two parameter arrays. -/
structure MyLinearModule where
  weight : Mat2
  bias : List ℚ
  deriving DecidableEq

/-- Embedding of calling the MyLinear module on an input, in explicit
state-passing style: the forward body only reads `self.weight.data` and
`self.bias.data` and assigns nothing, so the resulting module state is the
incoming state. -/
def myLinearStep (L : MyLinearModule) (x : Mat2) : MyLinearModule × Except String Mat2 :=
  (L, myLinearForward L.weight L.bias x)

/-- C9: a forward call leaves the weight and bias parameters unchanged,
its result is exactly the pure function of the current parameter values
and the input, and two modules with equal parameters give equal outputs on
equal inputs. -/
theorem myLinear_frame (L M : MyLinearModule) (x : Mat2)
    (hw : L.weight = M.weight) (hb : L.bias = M.bias) :
    (myLinearStep L x).1 = L ∧
    (myLinearStep L x).2 = myLinearForward L.weight L.bias x ∧
    (myLinearStep L x).2 = (myLinearStep M x).2 := by
  refine ⟨rfl, rfl, ?_⟩
  simp [myLinearStep, hw, hb]

/-- Witness for C9 at a concrete module and input. -/
theorem myLinear_frame_witness :
    (myLinearStep ⟨⟨[[2]], 1⟩, [5]⟩ ⟨[[7]], 1⟩).1 = ⟨⟨[[2]], 1⟩, [5]⟩ ∧
    (myLinearStep ⟨⟨[[2]], 1⟩, [5]⟩ ⟨[[7]], 1⟩).2 =
      myLinearForward ⟨[[2]], 1⟩ [5] ⟨[[7]], 1⟩ ∧
    (myLinearStep ⟨⟨[[2]], 1⟩, [5]⟩ ⟨[[7]], 1⟩).2 =
      (myLinearStep ⟨⟨[[2]], 1⟩, [5]⟩ ⟨[[7]], 1⟩).2 :=
  myLinear_frame ⟨⟨[[2]], 1⟩, [5]⟩ ⟨⟨[[2]], 1⟩, [5]⟩ ⟨[[7]], 1⟩ rfl rfl

/-! Section: TensorReductionLayer -/

/-- Three-dimensional array: a list of two-dimensional slices together
with the declared second and third dimensions. -/
structure Ten3 where
  items : List (List (List ℚ))
  mid : ℕ
  inner : ℕ
  deriving DecidableEq

/-- Embedding of `x.unsqueeze(-1) * x.unsqueeze(1)`: the batched outer
product of each input row with itself, entry (n, i, j) holding
x[n,i] * x[n,j]. -/
def outerSq (x : Mat2) : Ten3 :=
  ⟨x.rows.map (fun r => r.map (fun xi => r.map (fun xj => xi * xj))), x.cols, x.cols⟩

/-- Broadcast of two extents bound to the same einsum subscript: equal
extents combine to themselves, an extent of 1 is stretched to the other
extent, and any other pair is a size mismatch. -/
def bcastDim (a b : ℕ) : Option ℕ :=
  if a = b then some a
  else if a = 1 then some b
  else if b = 1 then some a
  else none

/-- Index at which an operand is read along a broadcast subscript: an
operand whose own extent along that subscript is 1 is read at index 0. -/
def bIdx (ownExtent i : ℕ) : ℕ := if ownExtent = 1 then 0 else i

/-- Embedding of `torch.einsum` with subscripts nij,kij->nk: the i and j
extents of the two operands are broadcast together (they must be equal or
one of them must be 1, with the size-1 axis read at index 0; einsum raises
on any other mismatch), and the output entry (n, k) is the sum over the
broadcast i and j ranges of the products of the matching entries, so the
second operand is contracted as W[k, i, j]. -/
def einsumNijKijNk (R W : Ten3) : Except String Mat2 :=
  match bcastDim R.mid W.mid, bcastDim R.inner W.inner with
  | some di, some dj =>
    Except.ok ⟨R.items.map (fun Rn => W.items.map (fun Wk =>
      ∑ i in Finset.range di, ∑ j in Finset.range dj,
        (Rn.getD (bIdx R.mid i) []).getD (bIdx R.inner j) 0 *
          (Wk.getD (bIdx W.mid i) []).getD (bIdx W.inner j) 0)), W.items.length⟩
  | _, _ => Except.error "einsum subscript size mismatch"

/-- Embedding of `TensorReductionLayer.forward` with weight `W`:
`torch.einsum` with subscripts nij,kij->nk applied to the batched outer
product and the weight. -/
def tensorReductionForward (W : Ten3) (x : Mat2) : Except String Mat2 :=
  einsumNijKijNk (outerSq x) W

/-- Modelled from the claim wording, for comparison with the code: the
bilinear form y[n,k] = sum over i and j of W[i,j,k] * x[n,i] * x[n,j],
with output shape (batch, outputDim), where outputDim is the third
dimension of the weight. -/
def tensorReductionClaim (W : Ten3) (x : Mat2) : Mat2 :=
  ⟨x.rows.map (fun r => (List.range W.inner).map (fun k =>
      ∑ i in Finset.range W.items.length, ∑ j in Finset.range W.mid,
        ((W.items.getD i []).getD j []).getD k 0 * r.getD i 0 * r.getD j 0)),
    W.inner⟩

/-- C1: evaluation of the code against the claimed bilinear form. At a
weight of shape (2, 2, 1), all ones, and input row [1, 2], the einsum with
subscripts nij,kij->nk broadcasts the size-1 j extent of the weight and
returns [[9, 9]] of shape (1, input_dim) where the claimed form gives
[[9]] of shape (1, output_dim). At a weight of shape (2, 2, 2) whose only
nonzero entry is W[0][0][1] = 1, the code returns [[2, 0]] (contracting
the weight as W[k,i,j]) while the claimed form gives [[0, 1]]. At a
weight of shape (2, 2, 3), all ones, the j extents 2 and 3 cannot be
broadcast and einsum raises a size mismatch, while the claimed form gives
[[9, 9, 9]]. -/
theorem tensorReduction_einsum_divergence :
    tensorReductionForward ⟨[[[1], [1]], [[1], [1]]], 2, 1⟩ ⟨[[1, 2]], 2⟩ =
      Except.ok ⟨[[9, 9]], 2⟩ ∧
    tensorReductionClaim ⟨[[[1], [1]], [[1], [1]]], 2, 1⟩ ⟨[[1, 2]], 2⟩ = ⟨[[9]], 1⟩ ∧
    tensorReductionForward ⟨[[[0, 1], [0, 0]], [[0, 0], [0, 0]]], 2, 2⟩ ⟨[[1, 2]], 2⟩ =
      Except.ok ⟨[[2, 0]], 2⟩ ∧
    tensorReductionClaim ⟨[[[0, 1], [0, 0]], [[0, 0], [0, 0]]], 2, 2⟩ ⟨[[1, 2]], 2⟩ =
      ⟨[[0, 1]], 2⟩ ∧
    tensorReductionForward ⟨[[[1, 1, 1], [1, 1, 1]], [[1, 1, 1], [1, 1, 1]]], 2, 3⟩
        ⟨[[1, 2]], 2⟩ =
      Except.error "einsum subscript size mismatch" ∧
    tensorReductionClaim ⟨[[[1, 1, 1], [1, 1, 1]], [[1, 1, 1], [1, 1, 1]]], 2, 3⟩
        ⟨[[1, 2]], 2⟩ =
      ⟨[[9, 9, 9]], 3⟩ := by
  refine ⟨?_, ?_, ?_, ?_, ?_, ?_⟩
  · simp only [tensorReductionForward, einsumNijKijNk, outerSq, bcastDim, bIdx]
    norm_num [Finset.sum_range_succ, List.range_succ]
  · simp only [tensorReductionClaim]
    norm_num [Finset.sum_range_succ, List.range_succ]
  · simp only [tensorReductionForward, einsumNijKijNk, outerSq, bcastDim, bIdx]
    norm_num [Finset.sum_range_succ, List.range_succ]
  · simp only [tensorReductionClaim]
    norm_num [Finset.sum_range_succ, List.range_succ]
  · simp only [tensorReductionForward, einsumNijKijNk, outerSq, bcastDim]
    norm_num
  · simp only [tensorReductionClaim]
    norm_num [Finset.sum_range_succ, List.range_succ]

/-! Section: FourierCoefficientsLayer -/

/-- Two-dimensional complex array: a list of rows together with the
declared column count. -/
structure CMat where
  rows : List (List ℂ)
  cols : ℕ

/-- Well-formedness of a `CMat`: every row has the declared length. -/
def CMat.WF (m : CMat) : Prop := ∀ r ∈ m.rows, r.length = m.cols

/-- Standard forward discrete Fourier transform of one row, entry k being
the sum over j of x[j] times exp(-2 pi I j k / n), with no normalization:
the embedding of `torch.fft.fft` on a single row. -/
noncomputable def dftRow (v : List ℂ) : List ℂ :=
  (List.range v.length).map (fun k : ℕ =>
    ∑ j in Finset.range v.length,
      v.getD j 0 *
        Complex.exp (-(2 * Real.pi * Complex.I * (j : ℂ) * (k : ℂ)) / (v.length : ℂ)))

lemma dftRow_length (v : List ℂ) : (dftRow v).length = v.length := by
  simp [dftRow]

/-- Embedding of `torch.fft.fft` applied along the last axis of a 2-d
tensor: the transform length must be positive, otherwise the call raises. -/
noncomputable def fftRows (m : CMat) : Except String CMat :=
  if m.cols = 0 then Except.error "Invalid number of data points (0) specified"
  else Except.ok ⟨m.rows.map dftRow, m.cols⟩

/-- Embedding of `FourierCoefficientsLayer.forward`: fft along the last
axis, then the column slice keeping the first cols / 2 columns. -/
noncomputable def fourierForward (m : CMat) : Except String CMat :=
  match fftRows m with
  | Except.error e => Except.error e
  | Except.ok f => Except.ok ⟨f.rows.map (fun r => r.take (f.cols / 2)), f.cols / 2⟩

lemma getD_take_lt {α : Type} (l : List α) (n k : ℕ) (hk : k < n) (hl : k < l.length)
    (d : α) : (l.take n).getD k d = l.getD k d := by
  rw [List.getD_eq_getElem _ _ (by simp [List.length_take]; omega),
    List.getD_eq_getElem _ _ hl]
  exact List.getElem_take l

/-- C4: for a well-formed input with n at least 2 columns, the forward
returns the first n / 2 columns of the row-wise discrete Fourier
transform: shape (batch, n / 2), entry (r, k) being the k-th DFT
coefficient of row r with the standard convention and no normalization. -/
theorem fourierHalf_spec (m : CMat) (hwf : m.WF) (hn : 2 ≤ m.cols) :
    ∃ y : CMat, fourierForward m = Except.ok y ∧
      y.cols = m.cols / 2 ∧ y.rows.length = m.rows.length ∧ y.WF ∧
      ∀ r k, r < m.rows.length → k < m.cols / 2 →
        (y.rows.getD r []).getD k 0 =
          ∑ j in Finset.range m.cols,
            (m.rows.getD r []).getD j 0 *
              Complex.exp (-(2 * Real.pi * Complex.I * j * k) / m.cols) := by
  have hc0 : ¬ m.cols = 0 := by omega
  have hf : fftRows m = Except.ok ⟨m.rows.map dftRow, m.cols⟩ := by
    rw [fftRows, if_neg hc0]
  have hfwd : fourierForward m =
      Except.ok ⟨(m.rows.map dftRow).map (fun r => r.take (m.cols / 2)), m.cols / 2⟩ := by
    simp only [fourierForward, hf]
  refine ⟨_, hfwd, rfl, by simp, ?_, ?_⟩
  · intro row hrow
    simp only [List.map_map, List.mem_map, Function.comp_def] at hrow
    obtain ⟨xr, hxr, rfl⟩ := hrow
    simp only [List.length_take, dftRow_length, hwf xr hxr]
    omega
  · intro r k hr hk
    have hrow : ((m.rows.map dftRow).map (fun r => r.take (m.cols / 2))).getD r []
        = (dftRow (m.rows.getD r [])).take (m.cols / 2) := by
      rw [List.map_map]
      exact getD_map_lt _ m.rows r hr [] []
    have hlen : (m.rows.getD r []).length = m.cols :=
      hwf _ (getD_mem_of_lt m.rows r hr [])
    have hkc : k < m.cols := by omega
    rw [hrow, getD_take_lt _ _ _ hk (by rw [dftRow_length, hlen]; omega) 0]
    rw [dftRow, getD_map_lt _ (List.range (m.rows.getD r []).length) k
      (by rw [List.length_range, hlen]; exact hkc) 0 0]
    rw [getD_range_lt _ k (by rw [hlen]; exact hkc) 0, hlen]

/-- Witness for C4 at the concrete one-row input [1, 2] with 2 columns. -/
theorem fourierHalf_spec_witness :
    ∃ y : CMat, fourierForward ⟨[[1, 2]], 2⟩ = Except.ok y ∧
      y.cols = 2 / 2 ∧ y.rows.length = (⟨[[1, 2]], 2⟩ : CMat).rows.length ∧ y.WF ∧
      ∀ r k, r < (⟨[[1, 2]], 2⟩ : CMat).rows.length → k < 2 / 2 →
        (y.rows.getD r []).getD k 0 =
          ∑ j in Finset.range 2,
            ((⟨[[1, 2]], 2⟩ : CMat).rows.getD r []).getD j 0 *
              Complex.exp (-(2 * Real.pi * Complex.I * j * k) / 2) := by
  have h := fourierHalf_spec ⟨[[1, 2]], 2⟩ (by intro r hr; simp at hr; simp [hr])
    (by norm_num)
  simpa using h

/-- C6 counterexample: on a one-row input with a single column, the
forward does not raise; it returns a zero-width result of shape (1, 0). -/
theorem fourierHalf_singleton_no_reject :
    fourierForward ⟨[[37]], 1⟩ = Except.ok ⟨[[]], 0⟩ := by
  have hf : fftRows ⟨[[37]], 1⟩ = Except.ok ⟨[[37]].map dftRow, 1⟩ := by
    rw [fftRows, if_neg (by decide)]
  simp only [fourierForward, hf]
  rfl

/-- C6 amended: on every well-formed input with a single column, the
forward returns, without any rejection, the array of shape (batch, 0)
whose rows are all empty. -/
theorem fourierHalf_singleton_empty (m : CMat) (hwf : m.WF) (h1 : m.cols = 1) :
    fourierForward m = Except.ok ⟨m.rows.map (fun _ => []), 0⟩ := by
  have hf : fftRows m = Except.ok ⟨m.rows.map dftRow, m.cols⟩ := by
    rw [fftRows, if_neg (by omega)]
  have h0 : m.cols / 2 = 0 := by omega
  simp only [fourierForward, hf, h0]
  simp [List.map_map, Function.comp_def]

/-- Witness for the amended C6 at the concrete one-row input [5] with one
column. -/
theorem fourierHalf_singleton_empty_witness :
    fourierForward ⟨[[5]], 1⟩ = Except.ok ⟨[[5]].map (fun _ => []), 0⟩ :=
  fourierHalf_singleton_empty ⟨[[5]], 1⟩ (by intro r hr; simp at hr; simp [hr]) rfl

end CustomLayer
